import Mathlib

/-!
Verification of the evon source generator's semantic-analysis core.

The Go sources are shallowly embedded: strings become `List Char`, the
`go/ast` expression nodes the resolver dispatches on become a closed
inductive type, maps become association lists or explicit state, and the
mutable parser state (`par.Errors`, `par.Decls`, `par.NeedSync`, the
comment-group cursor `cgIdx`) is threaded explicitly.  Recursions that in
Go run over a pointer graph (type resolution, interface flattening) are
given an explicit recursion budget ("fuel"); `none` at the outer level of
a result means the budget was exhausted, i.e. the Go recursion has not
returned yet, while `some` carries the value the Go function returns.

External collaborators (the Go parser/type-checker, `regexp`,
`text/template`, file I/O) are modelled at their interface: a comment is
its position plus the list of `@evon(...)` hits the regexp engine
reports (offset and captured flag text), and the program graph is the
already-type-checked module structure the loader supplies.
-/

namespace Evon

/-- Go strings, as lists of characters. -/
abbrev Str := List Char

/-- Packages are identified abstractly (Go: `*packages.Package` pointers). -/
abbrev PkgId := Nat

/-! ## Annotation scanner (extractAnnotation) -/

/-- The flag set of an annotation: `Flags map[string]bool` restricted to the
fixed vocabulary `catch, lock, pause, queue, spawn, unsub, wait`, one Boolean
per recognized flag. -/
structure FlagSet where
  fCatch : Bool
  fLock : Bool
  fPause : Bool
  fQueue : Bool
  fSpawn : Bool
  fUnsub : Bool
  fWait : Bool
deriving DecidableEq, Repr

/-- The all-false flag set (`map[string]bool{}`). -/
def FlagSet.empty : FlagSet := ⟨false, false, false, false, false, false, false⟩

/-- Errors produced by `extractAnnotation`, carrying the position data the Go
error messages format. -/
inductive AnnErr where
  /-- "Redundant annotation": position of the accepted marker and of the extra
  occurrence. -/
  | redundant (firstPos nextPos : Nat)
  /-- "Invalid flag": annotation position and the offending token. -/
  | invalidFlag (annPos : Nat) (tok : Str)
  /-- spawn cannot coexist with queue. -/
  | conflict (annPos : Nat)
  /-- wait requires spawn or queue. -/
  | dependency (annPos : Nat)
deriving DecidableEq, Repr

/-- An accepted annotation: position of the marker and the validated flags. -/
structure Ann where
  pos : Nat
  flags : FlagSet
deriving DecidableEq, Repr

/-- One comment of a comment group: its source position and the matches the
regexp `@evon\(\s*(.*?)\s*\)` reports in its text, each match being the
offset of the whole match and the captured flag text (group 1).  The regexp
engine is an external collaborator; its output is the model's input. -/
structure CommentM where
  pos : Nat
  hits : List (Nat × Str)
deriving DecidableEq, Repr

/-- A comment group (`*ast.CommentGroup`): the ordered comments it contains. -/
abbrev CommentGrp := List CommentM

/-- strings.TrimSpace on the model strings. -/
def trimStr (s : Str) : Str :=
  ((s.dropWhile Char.isWhitespace).reverse.dropWhile Char.isWhitespace).reverse

/-- Setting one parsed flag token in the flag set (`ann.Flags[flag] = true`),
`none` when the token is outside the fixed vocabulary (`!validFlags[flag]`). -/
def applyFlag (fs : FlagSet) (t : Str) : Option FlagSet :=
  if t = "catch".toList then some { fs with fCatch := true }
  else if t = "lock".toList then some { fs with fLock := true }
  else if t = "pause".toList then some { fs with fPause := true }
  else if t = "queue".toList then some { fs with fQueue := true }
  else if t = "spawn".toList then some { fs with fSpawn := true }
  else if t = "unsub".toList then some { fs with fUnsub := true }
  else if t = "wait".toList then some { fs with fWait := true }
  else none

/-- The flag-parsing loop of `extractAnnotation` (part_000 lines 112-124):
split the captured text on commas, trim whitespace, skip empty tokens,
reject unknown tokens, record recognized ones. -/
def parseFlags (annPos : Nat) (s : Str) : Except AnnErr FlagSet :=
  (s.splitOn ',').foldlM
    (fun fs tok =>
      let t := trimStr tok
      if t = [] then pure fs
      else
        match applyFlag fs t with
        | some fs' => pure fs'
        | none => throw (AnnErr.invalidFlag annPos t))
    FlagSet.empty

/-- The marker-finding loop of `extractAnnotation` (part_000 lines 84-106):
walk the comments of the group; the first marker occurrence is remembered
(position and captured flag text), any further occurrence — whether in the
same comment (`len(hits) > 1`) or a later comment of the group
(`foundCmt != nil`) — raises the redundant-annotation error naming both
positions. -/
def scanComments : List CommentM → Option (Nat × Str) → Except AnnErr (Option (Nat × Str))
  | [], found => .ok found
  | c :: rest, found =>
    match c.hits with
    | [] => scanComments rest found
    | m :: ms =>
      match found with
      | some fd => .error (AnnErr.redundant fd.1 (c.pos + m.1))
      | none =>
        match ms with
        | m2 :: _ => .error (AnnErr.redundant (c.pos + m.1) (c.pos + m2.1))
        | [] => scanComments rest (some (c.pos + m.1, m.2))

/-- `extractAnnotation` (part_000 lines 78-137): find the (unique) marker of
the comment group, parse its flags, then validate the combination
constraints: spawn and queue are mutually exclusive, and wait requires
spawn or queue. -/
def extractAnn (cg : CommentGrp) : Except AnnErr (Option Ann) := do
  match ← scanComments cg none with
  | none => pure none
  | some fd =>
    let fs ← parseFlags fd.1 fd.2
    if fs.fSpawn && fs.fQueue then
      throw (AnnErr.conflict fd.1)
    else if fs.fWait && !(fs.fSpawn || fs.fQueue) then
      throw (AnnErr.dependency fd.1)
    else
      pure (some ⟨fd.1, fs⟩)

/-- The extraction accepted the comment group and produced an annotation. -/
def annAccepts (cg : CommentGrp) : Bool :=
  match extractAnn cg with
  | .ok (some _) => true
  | _ => false

/-- The extraction failed with an error (and hence produced no annotation). -/
def annIsErr (cg : CommentGrp) : Bool :=
  match extractAnn cg with
  | .error _ => true
  | _ => false

/-- The source positions of all marker occurrences of a comment group, in
scanning order. -/
def occPositions (cg : CommentGrp) : List Nat :=
  cg.flatMap (fun c => c.hits.map (fun m => c.pos + m.1))

/-- The comma-separated flag text naming exactly the members of a flag set
(vocabulary order), e.g. `lock, wait`. -/
def flagTokens (fs : FlagSet) : List Str :=
  (if fs.fCatch then ["catch".toList] else []) ++
  (if fs.fLock then ["lock".toList] else []) ++
  (if fs.fPause then ["pause".toList] else []) ++
  (if fs.fQueue then ["queue".toList] else []) ++
  (if fs.fSpawn then ["spawn".toList] else []) ++
  (if fs.fUnsub then ["unsub".toList] else []) ++
  (if fs.fWait then ["wait".toList] else [])

/-- A single-comment group whose only marker carries the given flag set,
written out as `@evon(tok, tok, ...)` would be matched. -/
def groupOfFlagSet (fs : FlagSet) : CommentGrp :=
  [⟨0, [(0, List.intercalate (", ".toList) (flagTokens fs))]⟩]

/-! ## Type resolver (typeResolver.Resolve, part_000 lines 175-218)

The type expressions `Resolve` dispatches on form a closed union.  An
identifier whose `Obj` field is set (`identObj`) is bound to a type
declaration of the same module and resolution follows the declaration's
right-hand type; an identifier with no `Obj` (`identUse`) is resolved
through the type-checker's `Uses` table to a (package, object) pair and
then through the exported-top-level identifier map of that package.  The
method entries of an interface literal are part of the expression, as in
`go/ast`. -/

mutual

inductive TypeExpr where
  /-- `*ast.Ident` with `Obj != nil`: a locally declared name; `Obj.Decl`
  is the `TypeSpec` whose `Type` the module's `localType` table yields. -/
  | identObj (nm : Str)
  /-- `*ast.Ident` with `Obj == nil`: resolved through `TypesInfo.Uses`. -/
  | identUse (nm : Str)
  /-- `*ast.SelectorExpr`: `X.Sel`; resolution recurses into `Sel`. -/
  | selector (x sel : TypeExpr)
  /-- `*ast.ParenExpr`. -/
  | paren (x : TypeExpr)
  /-- `*ast.FuncType`; the signature payload is abstract (the claims under
  verification do not inspect parameter lists). -/
  | funcType (sig : Nat)
  /-- `*ast.InterfaceType` with its method list. -/
  | interfaceType (entries : List IEntry)
  /-- any other type expression (struct, map, chan, ...): terminal. -/
  | otherType (tag : Nat)

/-- One entry of an interface's `Methods.List`. -/
inductive IEntry where
  /-- a named method (`len(m.Names) > 0`), with abstract signature payload. -/
  | method (nm : Str) (sig : Nat)
  /-- an unnamed entry: an embedded type. -/
  | embed (t : TypeExpr)

end

/-- One module (`*packages.Package`) of the already-type-checked program
graph supplied by the loader. -/
structure Module where
  /-- the declared type of each locally bound identifier
  (`ident.Obj.Decl.(*ast.TypeSpec).Type`; in Go a pointer dereference,
  hence total). -/
  localType : Str → TypeExpr
  /-- `TypesInfo.Uses` composed with `pkg.Imports`: the defining package and
  object name a used identifier denotes, `none` when the identifier has no
  use entry (missing type information). -/
  uses : Str → Option (PkgId × Str)
  /-- `TypesInfo.Defs` restricted to the data `identMap` filters on: for
  each defined object, its name and whether its parent scope is the
  package (top-level) scope. -/
  defs : List (Str × Bool)

/-- The program graph: a module per package identifier. -/
abbrev Program := PkgId → Module

/-- `token.IsExported` / `Ident.IsExported`: the name starts with an
upper-case letter. -/
def isExported (nm : Str) : Bool :=
  match nm with
  | [] => false
  | c :: _ => c.isUpper

/-- `typeResolver.identMap` (part_000 lines 204-218), as the pure map it
computes: the names of the exported, top-level definitions of a module. -/
def identMapPure (m : Module) : List Str :=
  (m.defs.filter (fun d => d.2 && isExported d.1)).map (fun d => d.1)

/-- The memoization cache `typeResolver` itself is
(`map[*packages.Package]map[types.Object]*ast.Ident`). -/
abbrev IdentCache := List (PkgId × List Str)

/-- `identMap`'s lazy, memoized lookup: return the cached per-module map if
present, otherwise build it from `TypesInfo.Defs` and cache it. -/
def identMapMemo (P : Program) (c : IdentCache) (pkg : PkgId) : List Str × IdentCache :=
  match c.find? (fun e => e.1 == pkg) with
  | some e => (e.2, c)
  | none =>
    let r := identMapPure (P pkg)
    (r, (pkg, r) :: c)

/-- Every cache entry holds exactly the map `identMap` would build. -/
def CacheWF (P : Program) (c : IdentCache) : Prop :=
  ∀ e ∈ c, e.2 = identMapPure (P e.1)

/-- `typeResolver.Resolve` (part_000 lines 177-202), with an explicit
recursion budget.  The outer `none` means the budget ran out (the Go
recursion has not returned); `some none` is the `(nil, nil)` unresolved
result; `some (some (pkg, t))` is a terminal shape with its owning module.
A local identifier resolves into its declaration's right-hand type in the
same module; a used identifier resolves into the exported top-level
declaration of the defining module, switching the module context; a
selector resolves into its selected identifier; a parenthesized expression
into its operand; everything else is terminal. -/
def resolveF (P : Program) : Nat → PkgId → TypeExpr → Option (Option (PkgId × TypeExpr))
  | 0, _, _ => none
  | n + 1, pkg, t =>
    match t with
    | .identObj nm => resolveF P n pkg ((P pkg).localType nm)
    | .identUse nm =>
      match (P pkg).uses nm with
      | none => some none
      | some tgt =>
        if tgt.2 ∈ identMapPure (P tgt.1) then resolveF P n tgt.1 (.identObj tgt.2)
        else some none
    | .selector _ sel => resolveF P n pkg sel
    | .paren x => resolveF P n pkg x
    | .funcType sig => some (some (pkg, .funcType sig))
    | .interfaceType es => some (some (pkg, .interfaceType es))
    | .otherType tag => some (some (pkg, .otherType tag))

/-! ## Interface flattener (parser.extractInterface, main.go lines 487-515) -/

/-- A extracted method record (`funcRec`): the method's simple name (empty
for "the callable itself") and its abstract signature. -/
structure FuncRec where
  name : Str
  sig : Nat
deriving DecidableEq, Repr

/-- One pass over the entries of a single interface literal, parameterized
by the recursive flattening of embedded interfaces (`rec`) and by the
resolver (`reso`).  `par` is the package being generated for (`par.Pkg`),
`pkg` the package owning the interface; a named method is kept when it is
exported or the interface lives in the generated-for package, and then only
when its name is not in `seen` (`mthdNames`) yet, marking it seen; an
unnamed entry is resolved and must yield an interface, whose flattening
(sharing `seen`) is spliced in, any failure aborting the whole call.
The threaded `seen` list models the shared mutable `mthdNames` map. -/
def extractEntries (par : PkgId)
    (rec : PkgId → List IEntry → List Str → Option (Option (List FuncRec × List Str)))
    (reso : PkgId → TypeExpr → Option (Option (PkgId × TypeExpr))) :
    PkgId → List IEntry → List Str → Option (Option (List FuncRec × List Str))
  | _, [], seen => some (some ([], seen))
  | pkg, .method nm sig :: rest, seen =>
    if isExported nm || decide (pkg = par) then
      if nm ∈ seen then extractEntries par rec reso pkg rest seen
      else
        match extractEntries par rec reso pkg rest (nm :: seen) with
        | some (some (fs, sn)) => some (some (⟨nm, sig⟩ :: fs, sn))
        | o => o
    else extractEntries par rec reso pkg rest seen
  | pkg, .embed t :: rest, seen =>
    match reso pkg t with
    | none => none
    | some none => some none
    | some (some (epkg, .interfaceType ents)) =>
      match rec epkg ents seen with
      | none => none
      | some none => some none
      | some (some (fs₁, sn₁)) =>
        match extractEntries par rec reso pkg rest sn₁ with
        | some (some (fs₂, sn₂)) => some (some (fs₁ ++ fs₂, sn₂))
        | o => o
    | some (some _) => some none

/-- `parser.extractInterface` with an explicit recursion budget: the budget
decreases on each embedded-interface recursion; the resolver runs on the
remaining budget.  Outer `none`: budget exhausted; `some none`: the Go
function returned `(nil, false)`; `some (some (fs, seen))`: it returned
`(fs, true)` leaving `mthdNames = seen`. -/
def extractIfaceF (P : Program) (par : PkgId) :
    Nat → PkgId → List IEntry → List Str → Option (Option (List FuncRec × List Str))
  | 0, _, _, _ => none
  | n + 1, pkg, es, seen => extractEntries par (extractIfaceF P par n) (resolveF P n) pkg es seen

/-! ## Declaration binder (parser.ParseFile / ExtractEvent, main.go lines 382-464) -/

/-- The parser's collected error kinds, with the data the Go messages
format. -/
inductive PErr where
  /-- an error from `extractAnnotation`. -/
  | ann (e : AnnErr)
  /-- "Evon annotations apply only to func or interface type declarations",
  raised by the comment cursor for a marker-bearing group that is not the
  expected one. -/
  | misplaced (pos : Nat)
  /-- naming-convention violation for a handler type name. -/
  | naming (namePos : Nat) (nm : Str)
  /-- "Cannot resolve type ... due to compilation errors". -/
  | cannotResolve (namePos : Nat) (nm : Str)
  /-- "Interface type ... has no usable methods". -/
  | emptyInterface (namePos : Nat) (nm : Str)
  /-- "Evon annotations apply only to func or interface type declarations",
  raised for a terminal shape that is neither callable nor interface. -/
  | applyOnly (pos : Nat)
deriving DecidableEq, Repr

/-- `eventRec`: the declared handler name (with position) and the ordered
extracted signatures. -/
structure EventRec where
  name : Str
  namePos : Nat
  funcs : List FuncRec
deriving DecidableEq, Repr

/-- `*ast.TypeSpec`: name, name position, optional doc comment group
(as an index into the file's comment list) and the declared type. -/
structure TypeSpecM where
  name : Str
  namePos : Nat
  doc : Option Nat
  typ : TypeExpr

/-- `parser.ExtractEvent` (main.go lines 443-464): resolve the declared
type; a callable yields the single unnamed signature, an interface is
flattened (failure or emptiness being declaration-scoped errors), an
unresolved type reports the compilation-errors diagnostic, and any other
terminal shape the applies-only diagnostic. -/
def extractEventF (P : Program) (fuel : Nat) (par : PkgId) (an : Ann) (ts : TypeSpecM) :
    Option (Except PErr EventRec) :=
  match resolveF P fuel par ts.typ with
  | none => none
  | some none => some (.error (PErr.cannotResolve ts.namePos ts.name))
  | some (some (_, .funcType sig)) =>
    some (.ok ⟨ts.name, ts.namePos, [⟨[], sig⟩]⟩)
  | some (some (upkg, .interfaceType es)) =>
    match extractIfaceF P par fuel upkg es [] with
    | none => none
    | some none => some (.error (PErr.cannotResolve ts.namePos ts.name))
    | some (some (funcs, _)) =>
      if funcs = [] then some (.error (PErr.emptyInterface ts.namePos ts.name))
      else some (.ok ⟨ts.name, ts.namePos, funcs⟩)
  | some (some _) => some (.error (PErr.applyOnly an.pos))

/-- `*ast.GenDecl`: whether its token is `type`, its optional doc comment
group and its specs. -/
structure GenDeclM where
  isTypeTok : Bool
  doc : Option Nat
  specs : List TypeSpecM

/-- A source file: its ordered comment groups and its top-level
declarations, doc fields referring to comment-group indices. -/
structure FileM where
  comments : List CommentGrp
  decls : List GenDeclM

/-- A bound declaration (`declRec`). -/
structure DeclRec where
  ann : Ann
  event : EventRec
deriving DecidableEq, Repr

/-- The parser state the pass threads (`par.Decls`, `par.Errors`,
`par.NeedSync`). -/
structure PState where
  decls : List DeclRec
  errors : List PErr
  needSync : Bool
deriving DecidableEq, Repr

/-- The naming check of `ParseFile` (main.go lines 426-429): the handler
type name is accepted when it has the required suffix and is not of the
suffix's exact length (the error fires on
`!strings.HasSuffix(name, suffix) || len(name) == len(suffix)`). -/
def handlerNameOk (nm suffix : Str) : Bool :=
  suffix.isSuffixOf nm && nm.length != suffix.length

/-- The body of the `scanCmt` closure's loop (main.go lines 389-404): walk
comment groups from the cursor; an extraction error is collected; an
annotation on a group other than the expected one is collected as
misplaced; reaching the expected group returns its annotation (if any) and
the advanced cursor. -/
def scanCmtLoop (comments : List CommentGrp) (cur : Nat) :
    Nat → Nat → Option Ann × Nat × List PErr
  | 0, cgIdx => (none, cgIdx, [])
  | f + 1, cgIdx =>
    match comments[cgIdx]? with
    | none => (none, cgIdx, [])
    | some cg =>
      let next := cgIdx + 1
      let step : Option Ann × List PErr :=
        match extractAnn cg with
        | .error e => (none, [PErr.ann e])
        | .ok none => (none, [])
        | .ok (some an) =>
          if cgIdx = cur then (some an, []) else (some an, [PErr.misplaced an.pos])
      if cgIdx = cur then (step.1, next, step.2)
      else
        let rest := scanCmtLoop comments cur f next
        (rest.1, rest.2.1, step.2 ++ rest.2.2)

/-- `scanCmt` (main.go lines 384-406): nothing to do for a nil comment
group, otherwise run the cursor loop (a budget of `comments.length`
dominates the remaining groups). -/
def scanCmt (comments : List CommentGrp) (cgIdx : Nat) (doc : Option Nat) :
    Option Ann × Nat × List PErr :=
  match doc with
  | none => (none, cgIdx, [])
  | some cur => scanCmtLoop comments cur comments.length cgIdx

/-- The spec loop of `ParseFile` (main.go lines 415-439): each type spec's
own annotation, falling back to the group annotation; an annotated spec is
name-checked (non-fatally) and its event extracted; extraction errors are
collected, successes are appended to the declarations, and a lock or wait
flag marks the synchronization requirement. -/
def parseSpecs (P : Program) (fuel : Nat) (par : PkgId) (suffix : Str)
    (comments : List CommentGrp) (grpAnn : Option Ann) :
    List TypeSpecM → Nat → PState → Option (Nat × PState)
  | [], cgIdx, st => some (cgIdx, st)
  | ts :: rest, cgIdx, st =>
    let scanned := scanCmt comments cgIdx ts.doc
    let st₁ : PState := { st with errors := st.errors ++ scanned.2.2 }
    match (match scanned.1 with | some a => some a | none => grpAnn) with
    | none => parseSpecs P fuel par suffix comments grpAnn rest scanned.2.1 st₁
    | some an =>
      let st₂ : PState :=
        if handlerNameOk ts.name suffix then st₁
        else { st₁ with errors := st₁.errors ++ [PErr.naming ts.namePos ts.name] }
      match extractEventF P fuel par an ts with
      | none => none
      | some (.error e) =>
        parseSpecs P fuel par suffix comments grpAnn rest scanned.2.1
          { st₂ with errors := st₂.errors ++ [e] }
      | some (.ok ev) =>
        parseSpecs P fuel par suffix comments grpAnn rest scanned.2.1
          { st₂ with
            decls := st₂.decls ++ [⟨an, ev⟩],
            needSync := st₂.needSync || (an.flags.fLock || an.flags.fWait) }

/-- The declaration loop of `ParseFile` (main.go lines 408-440):
non-`type` declarations are skipped without moving the comment cursor;
a `type` declaration scans its doc group and processes its specs. -/
def parseDecls (P : Program) (fuel : Nat) (par : PkgId) (suffix : Str)
    (comments : List CommentGrp) :
    List GenDeclM → Nat → PState → Option (Nat × PState)
  | [], cgIdx, st => some (cgIdx, st)
  | gd :: rest, cgIdx, st =>
    if gd.isTypeTok then
      let scanned := scanCmt comments cgIdx gd.doc
      let st₁ : PState := { st with errors := st.errors ++ scanned.2.2 }
      match parseSpecs P fuel par suffix comments scanned.1 gd.specs scanned.2.1 st₁ with
      | none => none
      | some (cgIdx', st') => parseDecls P fuel par suffix comments rest cgIdx' st'
    else parseDecls P fuel par suffix comments rest cgIdx st

/-- `parser.ParseFile` on one file: its declaration loop with the comment
cursor starting at the first group. -/
def parseFileGo (P : Program) (fuel : Nat) (par : PkgId) (suffix : Str)
    (file : FileM) (st : PState) : Option PState :=
  match parseDecls P fuel par suffix file.comments file.decls 0 st with
  | none => none
  | some r => some r.2

/-- The file loop of `parser.ParsePkg` (main.go lines 370-373). -/
def parseFilesGo (P : Program) (fuel : Nat) (par : PkgId) (suffix : Str) :
    List FileM → PState → Option PState
  | [], st => some st
  | f :: rest, st =>
    match parseFileGo P fuel par suffix f st with
    | none => none
    | some st' => parseFilesGo P fuel par suffix rest st'

/-- The empty initial parser state (`newParser`). -/
def PState.init : PState := ⟨[], [], false⟩

/-- The event-name computation of `generate` (main.go lines 164-166):
`Name[:len(Name)-len(*flagHandlerSuffix)]`; `none` models the slice-bounds
panic a too-short name would cause. -/
def sliceEventName (nm suffix : Str) : Option Str :=
  if suffix.length ≤ nm.length then some (nm.take (nm.length - suffix.length)) else none

/-! ## Import finalization (parser.DedupImports, main.go lines 554-579) -/

/-- `importRec`, restricted to the data finalization orders and aliases:
the module path and its default package name.  (The recorded identifier
occurrences rewritten after alias assignment are textual AST mutation and
carry no information the claims inspect.) -/
structure ImportRecM where
  path : Str
  name : Str
deriving DecidableEq, Repr

/-- The priority tier of the sort comparator: `strings.Contains(path, ".")`
(standard-library paths sort before dotted dependency paths). -/
def pathTier (p : Str) : Bool := p.contains '.'

/-- The `sort.Slice` comparator of `DedupImports` (main.go lines 562-566):
`!iDot && jDot || iDot == jDot && path_i < path_j`. -/
def importLess (a b : ImportRecM) : Bool :=
  (!pathTier a.path && pathTier b.path)
    || (pathTier a.path == pathTier b.path && decide (a.path < b.path))

/-- The non-strict order a `sort.Slice` result is sorted by: `b` is not
strictly before `a`. -/
def impLe (a b : ImportRecM) : Prop := importLess b a = false

instance : DecidableRel impLe := fun a b => instDecidableEqBool (importLess b a) false

/-- The sort key of an import record: its priority tier, then its path,
lexicographically. -/
def keyOf (r : ImportRecM) : Bool ×ₗ Str := toLex (pathTier r.path, r.path)

/-- Decimal digits of a disambiguation counter. -/
def natSuffix : Nat → Str
  | 0 => []
  | k + 1 => Nat.toDigits 10 (k + 1)

/-- Modelled from the spec: the Identifier Deduplicator's `resolve`
operation (`dedupSet.Resolve`, whose source file is not under `src/`).
Per §4.5 of the specification it is deterministic and idempotent within a
namespace: the first call with a free base name returns it unchanged and
reserves it; a colliding base name gets a deterministic, implementation-
defined disambiguated variant (numeric-suffix style), which is reserved.
Searching `taken.length + 1` candidates always finds a free one. -/
def dedupResolve (taken : List Str) (base : Str) : Str :=
  match (List.range (taken.length + 1)).find? (fun k => !taken.contains (base ++ natSuffix k)) with
  | some k => base ++ natSuffix k
  | none => base

/-- The alias-assignment loop of `DedupImports` (main.go lines 568-578):
walk the sorted records, resolving each module's default name in the
shared namespace; the rewriting of recorded identifier occurrences is the
textual side effect of the same loop.  Returns `(path, alias)` pairs. -/
def assignAliases (taken : List Str) : List ImportRecM → List (Str × Str)
  | [] => []
  | r :: rest =>
    let a := dedupResolve taken r.name
    (r.path, a) :: assignAliases (a :: taken) rest

/-- The synchronization-import insertion of `DedupImports` (main.go lines
555-557): when the pass requires sync support and no user reference
already imported it, add the `sync` record. -/
def syncAugment (needSync : Bool) (l : List ImportRecM) : List ImportRecM :=
  if needSync && !(l.any (fun r => r.path = "sync".toList)) then
    ⟨"sync".toList, "sync".toList⟩ :: l
  else l

/-- `parser.DedupImports` end to end on the records in map-iteration order:
insert `sync` if required, sort by the (tier, path) comparator, and assign
aliases in sorted order. -/
def finalizeImports (needSync : Bool) (l : List ImportRecM) : List (Str × Str) :=
  assignAliases [] (List.insertionSort impLe (syncAugment needSync l))

/-! ## The two NeedSync updates

`generate.go`'s revision of `ParseFile` (its lines 418-432) recomputes
`NeedSync` from scratch while scanning each file's comment groups:
`par.NeedSyncLocal = par.NeedSyncLocal || ann.Flags[annWait];
 par.NeedSync = par.NeedSyncLocal || ann.Flags[annLock]`.
`main.go`'s revision (its lines 434-437) instead sets the flag stickily per
bound declaration: `if ann.Flags[annLock] || ann.Flags[annWait]
{ par.NeedSync = true }` (as threaded through `parseSpecs` above). -/

/-- The `generate.go` update folded over the accepted annotations' flag
sets in scanning order; the pair is `(NeedSyncLocal, NeedSync)`. -/
def needSyncScanGo (anns : List FlagSet) : Bool × Bool :=
  anns.foldl
    (fun st fl => (st.1 || fl.fWait, (st.1 || fl.fWait) || fl.fLock))
    (false, false)

/-- The `main.go` update folded over the bound declarations' flag sets. -/
def needSyncMono (anns : List FlagSet) : Bool :=
  anns.foldl (fun b fl => if fl.fLock || fl.fWait then true else b) false

/-! ## Concrete instances used to exercise the definitions -/

/-- The flag set of `@evon(lock)`. -/
def lockOnlyFS : FlagSet := ⟨false, true, false, false, false, false, false⟩

/-- The flag set of `@evon(catch)`. -/
def catchOnlyFS : FlagSet := ⟨true, false, false, false, false, false, false⟩

/-- The diamond-embedding program: in one module, `D` is an interface
declaring method `M`, `A` and `B` both embed `D`, and `C` embeds `A` and
`B`. -/
def diamondProg : Program := fun _ =>
  { localType := fun nm =>
      if nm = "A".toList then .interfaceType [.embed (.identObj "D".toList)]
      else if nm = "B".toList then .interfaceType [.embed (.identObj "D".toList)]
      else if nm = "D".toList then .interfaceType [.method "M".toList 5]
      else .otherType 0
    uses := fun _ => none
    defs := [] }

/-- The entry list of interface `C` of the diamond program. -/
def diamondC : List IEntry := [.embed (.identObj "A".toList), .embed (.identObj "B".toList)]

/-- A cyclic embedding graph: `I` is an interface whose sole entry embeds
`I` itself. -/
def cycProg : Program := fun _ =>
  { localType := fun _ => .interfaceType [.embed (.identObj "I".toList)]
    uses := fun _ => none
    defs := [] }

/-- The entry list of the cyclic interface `I`. -/
def cycEntries : List IEntry := [.embed (.identObj "I".toList)]

/-- A one-file input whose single type declaration `LoginHandler func...`
carries a `@evon(lock)` group annotation. -/
def fileW : FileM :=
  { comments := [[⟨0, [(0, "lock".toList)]⟩]]
    decls := [⟨true, some 0, [⟨"LoginHandler".toList, 1, none, .funcType 7⟩]⟩] }

/-- A program with a broken embedding: interface `J` embeds `N`, whose
declared type is neither callable nor interface. -/
def failProg : Program := fun _ =>
  { localType := fun nm =>
      if nm = "J".toList then .interfaceType [.embed (.identObj "N".toList)]
      else if nm = "N".toList then .otherType 3
      else .funcType 0
    uses := fun _ => none
    defs := [] }

/-- A two-module program exercising the resolver: module 0 binds every use
to the exported type `T` of module 1, whose declared type is a callable. -/
def progW : Program := fun p =>
  if p = 0 then
    { localType := fun _ => .funcType 7
      uses := fun _ => some (1, "T".toList)
      defs := [] }
  else
    { localType := fun _ => .funcType 9
      uses := fun _ => none
      defs := [("T".toList, true)] }

/-- The first-occurrence-wins invariant of a flattening function: on
success, the seen set only grows, the produced method names are free of
duplicates, and each produced name was not seen before the call but is
seen after it. -/
def FlatInv
    (f : PkgId → List IEntry → List Str → Option (Option (List FuncRec × List Str))) : Prop :=
  ∀ pkg es seen fs sn, f pkg es seen = some (some (fs, sn)) →
    (∀ x ∈ seen, x ∈ sn)
    ∧ (fs.map FuncRec.name).Nodup
    ∧ ∀ nm ∈ fs.map FuncRec.name, nm ∉ seen ∧ nm ∈ sn

/-- What one parsing step does to the collected state: errors and
declarations are appended, and when no error was appended every appended
declaration passed the naming check. -/
def StepOk (suffix : Str) (st st' : PState) : Prop :=
  ∃ Δe Δd, st'.errors = st.errors ++ Δe ∧ st'.decls = st.decls ++ Δd
    ∧ (Δe = [] → ∀ d ∈ Δd, handlerNameOk d.event.name suffix = true)

/-! ## Theorems -/

/-- C1.  For every subset of the flag vocabulary, annotation extraction
accepts the flag set if and only if the set neither contains both `spawn`
and `queue` nor contains `wait` without at least one of `spawn` or
`queue`; a violating set yields an error (and hence no annotation). -/
theorem c1_flag_validation :
    ∀ c l p q s u w : Bool,
      annAccepts (groupOfFlagSet ⟨c, l, p, q, s, u, w⟩)
          = (!(s && q) && !(w && !(s || q)))
        ∧ annIsErr (groupOfFlagSet ⟨c, l, p, q, s, u, w⟩)
          = !(!(s && q) && !(w && !(s || q))) := by
  decide

/-- Auxiliary unfolding: a comment with no marker hits is skipped and
contributes no occurrence positions. -/
theorem scanComments_eq_of_hits_nil {c : CommentM} (hh : c.hits = [])
    (found : Option (Nat × Str)) {cs : List CommentM} :
    scanComments (c :: cs) found = scanComments cs found
      ∧ occPositions (c :: cs) = occPositions cs := by
  constructor
  · simp [scanComments, hh]
  · simp [occPositions, hh]

/-- When a marker was already found and the remaining comments contain a
further occurrence, the comment scan fails naming the found and next
positions. -/
theorem scanComments_found_err (fd : Nat × Str) :
    ∀ (cs : List CommentM) (p₂ : Nat) (rest : List Nat),
      occPositions cs = p₂ :: rest →
      scanComments cs (some fd) = .error (AnnErr.redundant fd.1 p₂) := by
  intro cs
  induction cs with
  | nil => intro p₂ rest h; simp [occPositions] at h
  | cons c cs ih =>
    intro p₂ rest h
    match hh : c.hits with
    | [] =>
      rw [(scanComments_eq_of_hits_nil hh (some fd)).2] at h
      rw [(scanComments_eq_of_hits_nil hh (some fd)).1]
      exact ih p₂ rest h
    | m :: ms =>
      rw [occPositions, List.flatMap_cons, hh] at h
      simp only [List.map_cons, List.cons_append, List.cons.injEq] at h
      simp [scanComments, hh, h.1]

/-- A comment group with at least two marker occurrences makes the scan
fail with the redundant-annotation error naming the first two occurrence
positions. -/
theorem scanComments_two_occs :
    ∀ (cs : List CommentM) (p₁ p₂ : Nat) (rest : List Nat),
      occPositions cs = p₁ :: p₂ :: rest →
      scanComments cs none = .error (AnnErr.redundant p₁ p₂) := by
  intro cs
  induction cs with
  | nil => intro p₁ p₂ rest h; simp [occPositions] at h
  | cons c cs ih =>
    intro p₁ p₂ rest h
    match hh : c.hits with
    | [] =>
      rw [(scanComments_eq_of_hits_nil hh none).2] at h
      rw [(scanComments_eq_of_hits_nil hh none).1]
      exact ih p₁ p₂ rest h
    | [m] =>
      rw [occPositions, List.flatMap_cons, hh] at h
      simp only [List.map_cons, List.map_nil, List.cons_append, List.nil_append,
        List.cons.injEq] at h
      rw [show scanComments (c :: cs) none
            = scanComments cs (some (c.pos + m.1, m.2)) by simp [scanComments, hh]]
      rw [← h.1]
      exact scanComments_found_err _ cs p₂ rest h.2
    | m :: m₂ :: ms =>
      rw [occPositions, List.flatMap_cons, hh] at h
      simp only [List.map_cons, List.cons_append, List.cons.injEq] at h
      simp [scanComments, hh, h.1, h.2.1]

/-- C5.  At most one `@evon` marker per comment block is accepted: a
comment group whose occurrence list contains a second marker occurrence
makes extraction fail with the redundant-annotation error reporting the
positions of the first two occurrences, and no annotation is produced from
the block. -/
theorem c5_redundant (cg : CommentGrp) (p₁ p₂ : Nat) (rest : List Nat)
    (h : occPositions cg = p₁ :: p₂ :: rest) :
    extractAnn cg = .error (AnnErr.redundant p₁ p₂) := by
  rw [extractAnn, scanComments_two_occs cg p₁ p₂ rest h]
  rfl

/-- Witness for C5: the comment group `@evon(lock) ... @evon(wait)` (two
occurrences at offsets 1 and 5 of a comment at position 10) is rejected
with the diagnostic naming both positions. -/
theorem c5_redundant_witness :
    extractAnn [⟨10, [(1, "lock".toList), (5, "wait".toList)]⟩]
      = .error (AnnErr.redundant 11 15) :=
  c5_redundant _ 11 15 [] (by decide)

/-- C3.  The resolver's case analysis: a local alias identifier resolves
into its right-hand type in the same module; a used identifier resolves
into the exported top-level declaration of the defining module (through
the lazily built, memoized per-module identifier map) with the module
context switched, and a failed lookup yields unresolved; a selector
resolves into its selected identifier; a parenthesized expression into its
operand; any other expression is terminal with the current module; the
memoized map always agrees with the per-module map it caches; and the
caller turns an unresolved result into the cannot-resolve-due-to-
compilation-errors diagnostic for the declaration. -/
theorem c3_resolver_cases :
    (∀ (P : Program) (n : Nat) (pkg : PkgId) (nm : Str),
        resolveF P (n + 1) pkg (.identObj nm) = resolveF P n pkg ((P pkg).localType nm))
    ∧ (∀ (P : Program) (n : Nat) (pkg : PkgId) (nm : Str) (dep : PkgId) (obj : Str),
        (P pkg).uses nm = some (dep, obj) →
        resolveF P (n + 1) pkg (.identUse nm)
          = if obj ∈ identMapPure (P dep) then resolveF P n dep (.identObj obj)
            else some none)
    ∧ (∀ (P : Program) (n : Nat) (pkg : PkgId) (nm : Str),
        (P pkg).uses nm = none → resolveF P (n + 1) pkg (.identUse nm) = some none)
    ∧ (∀ (P : Program) (n : Nat) (pkg : PkgId) (x sel : TypeExpr),
        resolveF P (n + 1) pkg (.selector x sel) = resolveF P n pkg sel)
    ∧ (∀ (P : Program) (n : Nat) (pkg : PkgId) (x : TypeExpr),
        resolveF P (n + 1) pkg (.paren x) = resolveF P n pkg x)
    ∧ (∀ (P : Program) (n : Nat) (pkg : PkgId) (sig : Nat),
        resolveF P (n + 1) pkg (.funcType sig) = some (some (pkg, .funcType sig)))
    ∧ (∀ (P : Program) (n : Nat) (pkg : PkgId) (es : List IEntry),
        resolveF P (n + 1) pkg (.interfaceType es) = some (some (pkg, .interfaceType es)))
    ∧ (∀ (P : Program) (n : Nat) (pkg : PkgId) (tag : Nat),
        resolveF P (n + 1) pkg (.otherType tag) = some (some (pkg, .otherType tag)))
    ∧ (∀ (P : Program) (c : IdentCache) (pkg : PkgId), CacheWF P c →
        (identMapMemo P c pkg).1 = identMapPure (P pkg)
          ∧ CacheWF P (identMapMemo P c pkg).2)
    ∧ (∀ (P : Program) (fuel : Nat) (par : PkgId) (an : Ann) (ts : TypeSpecM),
        resolveF P fuel par ts.typ = some none →
        extractEventF P fuel par an ts
          = some (.error (PErr.cannotResolve ts.namePos ts.name))) := by
  refine ⟨fun P n pkg nm => rfl, ?_, ?_, fun P n pkg x sel => rfl, fun P n pkg x => rfl,
    fun P n pkg sig => rfl, fun P n pkg es => rfl, fun P n pkg tag => rfl, ?_, ?_⟩
  · intro P n pkg nm dep obj h
    simp [resolveF, h]
  · intro P n pkg nm h
    simp [resolveF, h]
  · intro P c pkg hwf
    rcases hfind : c.find? (fun e => e.1 == pkg) with _ | e
    · refine ⟨by simp [identMapMemo, hfind], ?_⟩
      intro e he
      rw [identMapMemo, hfind] at he
      rcases List.mem_cons.mp he with h | h
      · subst h; rfl
      · exact hwf e h
    · have hmem : e ∈ c := List.mem_of_find?_eq_some hfind
      have hbeq := List.find?_some hfind
      have hpkg : e.1 = pkg := by simpa using hbeq
      refine ⟨?_, ?_⟩
      · rw [identMapMemo, hfind]
        simpa [hpkg] using hwf e hmem
      · rw [identMapMemo, hfind]
        exact hwf
  · intro P fuel par an ts h
    simp [extractEventF, h]

/-- Witness for C3, on the two-module program `progW`: the imported
identifier `x` of module 0 resolves through the exported map of module 1
into `T`'s declared callable type; a failed lookup in module 1 is
unresolved and the caller emits the diagnostic; the memoized map from an
empty cache is the pure map. -/
theorem c3_resolver_cases_witness :
    (resolveF progW 2 0 (.identUse "x".toList)
        = if "T".toList ∈ identMapPure (progW 1)
          then resolveF progW 1 1 (.identObj "T".toList) else some none)
      ∧ ((identMapMemo progW [] 1).1 = identMapPure (progW 1)
          ∧ CacheWF progW (identMapMemo progW [] 1).2)
      ∧ extractEventF progW 1 1 ⟨0, FlagSet.empty⟩ ⟨"XHandler".toList, 3, none, .identUse "y".toList⟩
          = some (.error (PErr.cannotResolve 3 "XHandler".toList)) :=
  ⟨c3_resolver_cases.2.1 progW 1 0 "x".toList 1 "T".toList rfl,
   (c3_resolver_cases.2.2.2.2.2.2.2.2.1 progW [] 1 (by intro e he; simp at he)),
   c3_resolver_cases.2.2.2.2.2.2.2.2.2 progW 1 1 ⟨0, FlagSet.empty⟩
     ⟨"XHandler".toList, 3, none, .identUse "y".toList⟩ rfl⟩

/-- One entry pass preserves the first-occurrence-wins invariant, whatever
resolver is used, provided the recursive flattening of embedded interfaces
preserves it. -/
theorem extractEntries_inv (par : PkgId)
    (rec : PkgId → List IEntry → List Str → Option (Option (List FuncRec × List Str)))
    (reso : PkgId → TypeExpr → Option (Option (PkgId × TypeExpr)))
    (hrec : FlatInv rec) : FlatInv (extractEntries par rec reso) := by
  intro pkg es
  induction es with
  | nil =>
    intro seen fs sn h
    rw [extractEntries] at h
    simp only [Option.some.injEq, Prod.mk.injEq] at h
    obtain ⟨rfl, rfl⟩ := h
    exact ⟨fun x hx => hx, by simp, by simp⟩
  | cons e rest ih =>
    intro seen fs sn h
    match e with
    | .method nm sig =>
      rw [extractEntries] at h
      by_cases hvis : (isExported nm || decide (pkg = par)) = true
      · rw [if_pos hvis] at h
        by_cases hseen : nm ∈ seen
        · rw [if_pos hseen] at h
          exact ih seen fs sn h
        · rw [if_neg hseen] at h
          rcases hrest : extractEntries par rec reso pkg rest (nm :: seen) with _ | rres
          · simp [hrest] at h
          · rcases rres with _ | ⟨fs', sn'⟩
            · simp [hrest] at h
            · simp only [hrest, Option.some.injEq, Prod.mk.injEq] at h
              obtain ⟨hfs, hsn⟩ := h
              rw [← hfs, ← hsn]
              obtain ⟨hgrow, hnd, hnames⟩ := ih (nm :: seen) fs' sn' hrest
              refine ⟨fun x hx => hgrow x (List.mem_cons_of_mem _ hx), ?_, ?_⟩
              · simp only [List.map_cons, List.nodup_cons]
                exact ⟨fun hmem => ((hnames nm hmem).1 (List.mem_cons_self _ _)).elim, hnd⟩
              · intro x hx
                rcases List.mem_cons.mp hx with hx0 | hx'
                · subst hx0
                  exact ⟨hseen, hgrow x (List.mem_cons_self _ _)⟩
                · exact ⟨fun hc => (hnames x hx').1 (List.mem_cons_of_mem _ hc),
                    (hnames x hx').2⟩
      · rw [if_neg hvis] at h
        exact ih seen fs sn h
    | .embed t =>
      rw [extractEntries] at h
      rcases hres : reso pkg t with _ | tres
      · simp [hres] at h
      · rcases tres with _ | ⟨epkg, t'⟩
        · simp [hres] at h
        · cases t' with
        | identObj nm' => simp [hres] at h
        | identUse nm' => simp [hres] at h
        | selector x' s' => simp [hres] at h
        | paren x' => simp [hres] at h
        | funcType sig' => simp [hres] at h
        | otherType tag' => simp [hres] at h
        | interfaceType ents =>
          simp only [hres] at h
          rcases hemb : rec epkg ents seen with _ | eres
          · simp [hemb] at h
          · rcases eres with _ | ⟨fs₁, sn₁⟩
            · simp [hemb] at h
            · simp only [hemb] at h
              rcases hrest : extractEntries par rec reso pkg rest sn₁ with _ | rres
              · simp [hrest] at h
              · rcases rres with _ | ⟨fs₂, sn₂⟩
                · simp [hrest] at h
                · simp only [hrest, Option.some.injEq, Prod.mk.injEq] at h
                  obtain ⟨hfs, hsn⟩ := h
                  rw [← hfs, ← hsn]
                  obtain ⟨hg₁, hnd₁, hn₁⟩ := hrec epkg ents seen fs₁ sn₁ hemb
                  obtain ⟨hg₂, hnd₂, hn₂⟩ := ih sn₁ fs₂ sn₂ hrest
                  refine ⟨fun x hx => hg₂ x (hg₁ x hx), ?_, ?_⟩
                  · rw [List.map_append]
                    refine List.Nodup.append hnd₁ hnd₂ ?_
                    intro x hx₁ hx₂
                    exact (hn₂ x hx₂).1 ((hn₁ x hx₁).2)
                  · intro x hx
                    rw [List.map_append] at hx
                    rcases List.mem_append.mp hx with hx₁ | hx₂
                    · exact ⟨(hn₁ x hx₁).1, hg₂ x (hn₁ x hx₁).2⟩
                    · exact ⟨fun hc => (hn₂ x hx₂).1 (hg₁ x hc), (hn₂ x hx₂).2⟩

/-- The fuel-indexed flattening satisfies the first-occurrence-wins
invariant at every budget. -/
theorem extractIfaceF_inv (P : Program) (par : PkgId) :
    ∀ n, FlatInv (extractIfaceF P par n) := by
  intro n
  induction n with
  | zero => intro pkg es seen fs sn h; exact absurd h (by simp [extractIfaceF])
  | succ m ih => exact extractEntries_inv par _ _ ih

/-- C2.  Flattening skips any method whose simple name was already
produced by an earlier depth-first occurrence — on success the produced
names are duplicate-free and disjoint from the names already seen — and on
the diamond program (`C` embeds `A` and `B`, both embedding `D` which
declares `M`), flattening `C` yields `M` exactly once. -/
theorem c2_flatten_dedup :
    (∀ (P : Program) (par n pkg : _) (es : List IEntry) (seen : List Str)
        (fs : List FuncRec) (sn : List Str),
        extractIfaceF P par n pkg es seen = some (some (fs, sn)) →
        (fs.map FuncRec.name).Nodup ∧ ∀ nm ∈ fs.map FuncRec.name, nm ∉ seen)
    ∧ extractIfaceF diamondProg 0 9 0 diamondC []
        = some (some ([⟨"M".toList, 5⟩], ["M".toList])) := by
  constructor
  · intro P par n pkg es seen fs sn h
    obtain ⟨_, hnd, hn⟩ := extractIfaceF_inv P par n pkg es seen fs sn h
    exact ⟨hnd, fun nm hm => (hn nm hm).1⟩
  · rfl

/-- Witness for C2: the general dedup conclusion instantiated on the
diamond flattening itself. -/
theorem c2_flatten_dedup_witness :
    (([(⟨"M".toList, 5⟩ : FuncRec)].map FuncRec.name).Nodup
      ∧ ∀ nm ∈ [(⟨"M".toList, 5⟩ : FuncRec)].map FuncRec.name, nm ∉ ([] : List Str)) :=
  c2_flatten_dedup.1 diamondProg 0 9 0 diamondC [] [⟨"M".toList, 5⟩] ["M".toList] rfl

/-- If some entry of the list is an embedding whose resolution fails or is
not an interface, the entry pass — whenever it returns at all — returns
the failure result, never a partial method list. -/
theorem extractEntries_embed_fail (par : PkgId)
    (rec : PkgId → List IEntry → List Str → Option (Option (List FuncRec × List Str)))
    (reso : PkgId → TypeExpr → Option (Option (PkgId × TypeExpr)))
    (pkg : PkgId) :
    ∀ (es : List IEntry) (seen : List Str) (t : TypeExpr)
      (r : Option (List FuncRec × List Str)),
      IEntry.embed t ∈ es →
      (reso pkg t = some none
        ∨ ∃ p' t', reso pkg t = some (some (p', t'))
            ∧ ∀ ents, t' ≠ .interfaceType ents) →
      extractEntries par rec reso pkg es seen = some r → r = none := by
  intro es
  induction es with
  | nil => intro seen t r hmem; exact absurd hmem (List.not_mem_nil _)
  | cons e rest ih =>
    intro seen t r hmem hbad h
    match e with
    | .method nm sig =>
      have hmem' : IEntry.embed t ∈ rest := by
        rcases List.mem_cons.mp hmem with hc | hc
        · exact absurd hc (by simp)
        · exact hc
      rw [extractEntries] at h
      by_cases hvis : (isExported nm || decide (pkg = par)) = true
      · rw [if_pos hvis] at h
        by_cases hseen : nm ∈ seen
        · rw [if_pos hseen] at h
          exact ih seen t r hmem' hbad h
        · rw [if_neg hseen] at h
          rcases hrest : extractEntries par rec reso pkg rest (nm :: seen) with _ | rres
          · simp [hrest] at h
          · rcases rres with _ | ⟨fs', sn'⟩
            · simp only [hrest, Option.some.injEq] at h
              exact h.symm
            · exact absurd (ih (nm :: seen) t _ hmem' hbad hrest) (by simp)
      · rw [if_neg hvis] at h
        exact ih seen t r hmem' hbad h
    | .embed t₀ =>
      rw [extractEntries] at h
      rcases List.mem_cons.mp hmem with hc | hmem'
      · have ht : t = t₀ := by injection hc
        subst ht
        rcases hbad with hb | ⟨p', t', hb, hni⟩
        · simp only [hb, Option.some.injEq] at h
          exact h.symm
        · cases t' with
          | interfaceType ents => exact absurd rfl (hni ents)
          | identObj nm' => simp only [hb, Option.some.injEq] at h; exact h.symm
          | identUse nm' => simp only [hb, Option.some.injEq] at h; exact h.symm
          | selector x' s' => simp only [hb, Option.some.injEq] at h; exact h.symm
          | paren x' => simp only [hb, Option.some.injEq] at h; exact h.symm
          | funcType sig' => simp only [hb, Option.some.injEq] at h; exact h.symm
          | otherType tag' => simp only [hb, Option.some.injEq] at h; exact h.symm
      · rcases hres : reso pkg t₀ with _ | tres
        · simp [hres] at h
        · rcases tres with _ | ⟨epkg, t'⟩
          · simp only [hres, Option.some.injEq] at h
            exact h.symm
          · cases t' with
          | identObj nm' => simp only [hres, Option.some.injEq] at h; exact h.symm
          | identUse nm' => simp only [hres, Option.some.injEq] at h; exact h.symm
          | selector x' s' => simp only [hres, Option.some.injEq] at h; exact h.symm
          | paren x' => simp only [hres, Option.some.injEq] at h; exact h.symm
          | funcType sig' => simp only [hres, Option.some.injEq] at h; exact h.symm
          | otherType tag' => simp only [hres, Option.some.injEq] at h; exact h.symm
          | interfaceType ents =>
            simp only [hres] at h
            rcases hemb : rec epkg ents seen with _ | eres
            · simp [hemb] at h
            · rcases eres with _ | ⟨fs₁, sn₁⟩
              · simp only [hemb, Option.some.injEq] at h
                exact h.symm
              · simp only [hemb] at h
                rcases hrest : extractEntries par rec reso pkg rest sn₁ with _ | rres
                · simp [hrest] at h
                · rcases rres with _ | ⟨fs₂, sn₂⟩
                  · simp only [hrest, Option.some.injEq] at h
                    exact h.symm
                  · exact absurd (ih sn₁ t _ hmem' hbad hrest) (by simp)

/-- C7.  If any embedded entry of an interface fails to resolve, or
resolves to a terminal shape that is not an interface, the entire flatten
call fails with no partial method list, and the enclosing declaration
receives the declaration-scoped cannot-resolve error instead of an event
shape. -/
theorem c7_embed_failure :
    (∀ (P : Program) (par : PkgId) (n pkg : _) (es : List IEntry) (seen : List Str)
        (t : TypeExpr) (r : Option (List FuncRec × List Str)),
        IEntry.embed t ∈ es →
        (resolveF P n pkg t = some none
          ∨ ∃ p' t', resolveF P n pkg t = some (some (p', t'))
              ∧ ∀ ents, t' ≠ .interfaceType ents) →
        extractIfaceF P par (n + 1) pkg es seen = some r → r = none)
    ∧ (∀ (P : Program) (fuel : Nat) (par : PkgId) (an : Ann) (ts : TypeSpecM)
        (upkg : PkgId) (es : List IEntry),
        resolveF P fuel par ts.typ = some (some (upkg, .interfaceType es)) →
        extractIfaceF P par fuel upkg es [] = some none →
        extractEventF P fuel par an ts
          = some (.error (PErr.cannotResolve ts.namePos ts.name))) := by
  constructor
  · intro P par n pkg es seen t r hmem hbad h
    exact extractEntries_embed_fail par (extractIfaceF P par n) (resolveF P n) pkg
      es seen t r hmem hbad h
  · intro P fuel par an ts upkg es h₁ h₂
    simp [extractEventF, h₁, h₂]

/-- Witness for C7, on the broken-embedding program: flattening `J`
(whose entry embeds the non-interface `N`) fails, and extracting the event
for a declaration of type `J` yields the cannot-resolve diagnostic. -/
theorem c7_embed_failure_witness :
    ((some none : Option (Option (List FuncRec × List Str))) = some none
        → (none : Option (List FuncRec × List Str)) = none)
      ∧ extractEventF failProg 5 0 ⟨0, FlagSet.empty⟩
          ⟨"JHandler".toList, 2, none, .identObj "J".toList⟩
        = some (.error (PErr.cannotResolve 2 "JHandler".toList)) :=
  ⟨fun _ =>
    c7_embed_failure.1 failProg 0 2 0 [.embed (.identObj "N".toList)] [] (.identObj "N".toList)
      none (List.mem_singleton.mpr rfl)
      (Or.inr ⟨0, .otherType 3, rfl, fun _ hc => TypeExpr.noConfusion hc⟩) rfl,
   c7_embed_failure.2 failProg 5 0 ⟨0, FlagSet.empty⟩
     ⟨"JHandler".toList, 2, none, .identObj "J".toList⟩ 0 [.embed (.identObj "N".toList)]
     rfl rfl⟩

/-- On the cyclic embedding graph, flattening exhausts every recursion
budget: there is no explicit in-progress guard breaking the cycle. -/
theorem extractIfaceF_cyc_none :
    ∀ (n : Nat) (seen : List Str), extractIfaceF cycProg 0 n 0 cycEntries seen = none := by
  intro n
  induction n with
  | zero => intro seen; rfl
  | succ m ih =>
    intro seen
    match m, ih with
    | 0, _ => rfl
    | 1, _ => rfl
    | k + 2, ih =>
      have hres : resolveF cycProg (k + 2) 0 (.identObj "I".toList)
          = some (some (0, .interfaceType cycEntries)) := rfl
      show extractEntries 0 (extractIfaceF cycProg 0 (k + 2)) (resolveF cycProg (k + 2))
          0 cycEntries seen = none
      rw [cycEntries, extractEntries, hres]
      simp only [ih seen]

/-- C9 counterexample.  The claim's visited guard does not exist: on the
cyclic program whose interface `I` embeds itself, flattening completes
under no recursion budget at all, instead of detecting the cycle and
treating it as a resolution failure. -/
theorem c9_counterexample :
    ¬ ∃ (n : Nat) (r : Option (List FuncRec × List Str)),
        extractIfaceF cycProg 0 n 0 cycEntries [] = some r := by
  rintro ⟨n, r, h⟩
  rw [extractIfaceF_cyc_none n []] at h
  exact Option.noConfusion h

/-- The resolver is stable under additional recursion budget. -/
theorem resolveF_mono (P : Program) :
    ∀ (n m : Nat) (pkg : PkgId) (t : TypeExpr) (r : Option (PkgId × TypeExpr)),
      n ≤ m → resolveF P n pkg t = some r → resolveF P m pkg t = some r := by
  intro n
  induction n with
  | zero => intro m pkg t r _ h; exact absurd h (by simp [resolveF])
  | succ n ih =>
    intro m pkg t r hle h
    match m, hle with
    | m + 1, hle =>
      have hle' : n ≤ m := Nat.succ_le_succ_iff.mp hle
      cases t with
      | identObj nm => exact ih m pkg _ r hle' h
      | identUse nm =>
        rw [resolveF] at h ⊢
        rcases huse : (P pkg).uses nm with _ | tgt
        · simp only [huse] at h ⊢
          exact h
        · simp only [huse] at h ⊢
          by_cases hmem : tgt.2 ∈ identMapPure (P tgt.1)
          · rw [if_pos hmem] at h ⊢
            exact ih m tgt.1 _ r hle' h
          · rw [if_neg hmem] at h ⊢
            exact h
      | selector x sel => exact ih m pkg sel r hle' h
      | paren x => exact ih m pkg x r hle' h
      | funcType sig => exact h
      | interfaceType es => exact h
      | otherType tag => exact h

/-- The entry pass is stable under pointwise strengthening of its recursive
flattening and resolver arguments. -/
theorem extractEntries_mono (par : PkgId)
    (rec₁ rec₂ : PkgId → List IEntry → List Str → Option (Option (List FuncRec × List Str)))
    (reso₁ reso₂ : PkgId → TypeExpr → Option (Option (PkgId × TypeExpr)))
    (hrec : ∀ pkg es seen r, rec₁ pkg es seen = some r → rec₂ pkg es seen = some r)
    (hreso : ∀ pkg t r, reso₁ pkg t = some r → reso₂ pkg t = some r)
    (pkg : PkgId) :
    ∀ (es : List IEntry) (seen : List Str) (r : Option (List FuncRec × List Str)),
      extractEntries par rec₁ reso₁ pkg es seen = some r →
      extractEntries par rec₂ reso₂ pkg es seen = some r := by
  intro es
  induction es with
  | nil => intro seen r h; exact h
  | cons e rest ih =>
    intro seen r h
    match e with
    | .method nm sig =>
      rw [extractEntries] at h ⊢
      by_cases hvis : (isExported nm || decide (pkg = par)) = true
      · rw [if_pos hvis] at h ⊢
        by_cases hseen : nm ∈ seen
        · rw [if_pos hseen] at h ⊢
          exact ih seen r h
        · rw [if_neg hseen] at h ⊢
          rcases hrest : extractEntries par rec₁ reso₁ pkg rest (nm :: seen) with _ | rres
          · simp [hrest] at h
          · rw [ih (nm :: seen) rres hrest]
            rw [hrest] at h
            exact h
      · rw [if_neg hvis] at h ⊢
        exact ih seen r h
    | .embed t =>
      rw [extractEntries] at h ⊢
      rcases hres : reso₁ pkg t with _ | tres
      · simp [hres] at h
      · rw [hreso pkg t tres hres]
        rw [hres] at h
        rcases tres with _ | ⟨epkg, t'⟩
        · exact h
        · cases t' with
        | identObj nm' => exact h
        | identUse nm' => exact h
        | selector x' s' => exact h
        | paren x' => exact h
        | funcType sig' => exact h
        | otherType tag' => exact h
        | interfaceType ents =>
          simp only at h ⊢
          rcases hemb : rec₁ epkg ents seen with _ | eres
          · simp [hemb] at h
          · rw [hrec epkg ents seen eres hemb]
            rw [hemb] at h
            rcases eres with _ | ⟨fs₁, sn₁⟩
            · exact h
            · simp only at h ⊢
              rcases hrest : extractEntries par rec₁ reso₁ pkg rest sn₁ with _ | rres
              · simp [hrest] at h
              · rw [ih sn₁ rres hrest]
                rw [hrest] at h
                exact h

/-- C9 (amended).  Interface flattening carries no in-progress guard; it is
deterministic and stable under additional recursion budget: a flatten call
that returns under some budget returns the same outcome under every larger
budget, so it terminates exactly on those (acyclic) embedding graphs for
which some finite budget suffices. -/
theorem c9_flatten_fuel_stable :
    ∀ (P : Program) (par : PkgId) (n m pkg : _) (es : List IEntry) (seen : List Str)
      (r : Option (List FuncRec × List Str)),
      n ≤ m → extractIfaceF P par n pkg es seen = some r →
      extractIfaceF P par m pkg es seen = some r := by
  intro P par n
  induction n with
  | zero => intro m pkg es seen r _ h; exact absurd h (by simp [extractIfaceF])
  | succ n ih =>
    intro m pkg es seen r hle h
    match m, hle with
    | m + 1, hle =>
      have hle' : n ≤ m := Nat.succ_le_succ_iff.mp hle
      exact extractEntries_mono par (extractIfaceF P par n) (extractIfaceF P par m)
        (resolveF P n) (resolveF P m)
        (fun pkg es seen r => ih m pkg es seen r hle')
        (fun pkg t r => resolveF_mono P n m pkg t r hle')
        pkg es seen r h

/-- Witness for C9 (amended): the diamond flattening computed with budget 9
is preserved verbatim at budget 12. -/
theorem c9_flatten_fuel_stable_witness :
    extractIfaceF diamondProg 0 12 0 diamondC []
      = some (some ([⟨"M".toList, 5⟩], ["M".toList])) :=
  c9_flatten_fuel_stable diamondProg 0 9 12 0 diamondC []
    (some ([⟨"M".toList, 5⟩], ["M".toList])) (by decide) rfl

/-- The Go comparator is the strict lexicographic order on (tier, path)
keys. -/
theorem importLess_iff (a b : ImportRecM) : importLess a b = true ↔ keyOf a < keyOf b := by
  rw [importLess, keyOf, keyOf, Prod.Lex.lt_iff]
  simp [Bool.lt_iff, Bool.not_eq_true', decide_eq_true_eq, and_comm]

/-- The sortedness relation is the non-strict lexicographic order on
(tier, path) keys. -/
theorem impLe_iff (a b : ImportRecM) : impLe a b ↔ keyOf a ≤ keyOf b := by
  rw [impLe, ← Bool.not_eq_true, importLess_iff, not_lt]

instance : IsTotal ImportRecM impLe :=
  ⟨fun a b => by rw [impLe_iff, impLe_iff]; exact le_total _ _⟩

instance : IsTrans ImportRecM impLe :=
  ⟨fun a b c hab hbc => by
    rw [impLe_iff] at hab hbc ⊢
    exact le_trans hab hbc⟩

/-- Mutually non-preceding records have the same path. -/
theorem impLe_antisymm_path {a b : ImportRecM} (hab : impLe a b) (hba : impLe b a) :
    a.path = b.path := by
  rw [impLe_iff] at hab hba
  have hk : keyOf a = keyOf b := le_antisymm hab hba
  exact congrArg (fun k => (ofLex k).2) hk

/-- Two sorted permutations of the same records with pairwise distinct
paths are equal: sorting by (tier, path) canonicalizes any iteration
order. -/
theorem sorted_perm_path_nodup_eq :
    ∀ {l₁ l₂ : List ImportRecM}, l₁.Perm l₂ → l₁.Sorted impLe → l₂.Sorted impLe →
      (l₂.map ImportRecM.path).Nodup → l₁ = l₂ := by
  intro l₁
  induction l₁ with
  | nil => intro l₂ hp _ _ _; exact hp.nil_eq
  | cons a l₁ ih =>
    intro l₂ hp hs₁ hs₂ hnd
    have ha : a ∈ l₂ := hp.subset (List.mem_cons_self _ _)
    rcases List.append_of_mem ha with ⟨u₂, v₂, rfl⟩
    have hp' : l₁.Perm (u₂ ++ v₂) := (List.perm_cons a).mp (hp.trans List.perm_middle)
    have hu : u₂ = [] := by
      rcases hu2 : u₂ with _ | ⟨x, u₂'⟩
      · rfl
      · exfalso
        subst hu2
        have hx : x ∈ x :: u₂' := List.mem_cons_self _ _
        have hxa : impLe x a :=
          (List.pairwise_append.mp hs₂).2.2 x hx a (List.mem_cons_self _ _)
        have hax : impLe a x :=
          List.rel_of_sorted_cons hs₁ x
            (hp'.symm.subset (List.mem_append_left _ hx))
        have hpath : a.path = x.path := impLe_antisymm_path hax hxa
        rw [List.map_append, List.nodup_append] at hnd
        exact hnd.2.2 (hpath ▸ List.mem_map_of_mem ImportRecM.path hx)
          (List.mem_map_of_mem ImportRecM.path (List.mem_cons_self _ _))
    subst hu
    simp only [List.nil_append] at hp' hs₂ hnd ⊢
    rw [ih hp' hs₁.of_cons hs₂.of_cons (by
      rw [List.map_cons, List.nodup_cons] at hnd
      exact hnd.2)]

/-- C4.  Import finalization is independent of the hash-map iteration
order: for any two iteration orders of the same import records (with their
distinct module paths), inserting the sync record, sorting by (tier, path)
and assigning aliases produce identical results, so alias assignment and
rendered import order are deterministic. -/
theorem c4_import_determinism (ns : Bool) (l₁ l₂ : List ImportRecM)
    (hp : l₁.Perm l₂) (hnd : (l₁.map ImportRecM.path).Nodup) :
    finalizeImports ns l₁ = finalizeImports ns l₂ := by
  have hany : (l₁.any fun r => r.path = "sync".toList)
      = (l₂.any fun r => r.path = "sync".toList) := by
    cases h : l₂.any fun r => r.path = "sync".toList
    · rw [Bool.eq_false_iff]
      intro hc
      rw [List.any_eq_true] at hc
      obtain ⟨x, hx, hfx⟩ := hc
      rw [Bool.eq_false_iff] at h
      exact h (List.any_eq_true.mpr ⟨x, hp.mem_iff.mp hx, hfx⟩)
    · rw [List.any_eq_true] at h ⊢
      obtain ⟨x, hx, hfx⟩ := h
      exact ⟨x, hp.mem_iff.mpr hx, hfx⟩
  have hp₂ : (syncAugment ns l₁).Perm (syncAugment ns l₂) := by
    rw [syncAugment, syncAugment, hany]
    by_cases hc : (ns && !l₂.any fun r => r.path = "sync".toList) = true
    · rw [if_pos hc, if_pos hc]
      exact hp.cons _
    · rw [if_neg hc, if_neg hc]
      exact hp
  have hnd₂ : ((syncAugment ns l₂).map ImportRecM.path).Nodup := by
    have hndl₂ : (l₂.map ImportRecM.path).Nodup := ((hp.map ImportRecM.path).nodup_iff).mp hnd
    rw [syncAugment]
    by_cases hc : (ns && !l₂.any fun r => r.path = "sync".toList) = true
    · rw [if_pos hc]
      rw [List.map_cons, List.nodup_cons]
      refine ⟨?_, hndl₂⟩
      intro hmem
      rw [List.mem_map] at hmem
      obtain ⟨x, hx, hfx⟩ := hmem
      have := (Bool.and_eq_true _ _).mp hc
      rw [Bool.not_eq_true', Bool.eq_false_iff] at this
      exact this.2 (List.any_eq_true.mpr ⟨x, hx, by rw [hfx]; simp⟩)
    · rw [if_neg hc]
      exact hndl₂
  rw [finalizeImports, finalizeImports]
  rw [sorted_perm_path_nodup_eq
    ((List.perm_insertionSort impLe _).trans (hp₂.trans (List.perm_insertionSort impLe _).symm))
    (List.sorted_insertionSort impLe _)
    (List.sorted_insertionSort impLe _)
    (((List.perm_insertionSort impLe (syncAugment ns l₂)).map ImportRecM.path).nodup_iff.mpr hnd₂)]

/-- Witness for C4: two iteration orders of the records
`{fmt, example.com/util}` finalize to the same alias table. -/
theorem c4_import_determinism_witness :
    finalizeImports true
        [⟨"example.com/util".toList, "util".toList⟩, ⟨"fmt".toList, "fmt".toList⟩]
      = finalizeImports true
        [⟨"fmt".toList, "fmt".toList⟩, ⟨"example.com/util".toList, "util".toList⟩] :=
  c4_import_determinism true _ _ (by decide) (by decide)

/-- The naming check passes exactly for names that end with the suffix and
are strictly longer than it. -/
theorem handlerNameOk_iff (nm suffix : Str) :
    handlerNameOk nm suffix = true ↔ suffix <:+ nm ∧ suffix.length < nm.length := by
  rw [handlerNameOk, Bool.and_eq_true, List.isSuffixOf_iff_suffix, bne_iff_ne]
  constructor
  · rintro ⟨h₁, h₂⟩
    exact ⟨h₁, lt_of_le_of_ne h₁.length_le (Ne.symm h₂)⟩
  · rintro ⟨h₁, h₂⟩
    exact ⟨h₁, ne_of_gt h₂⟩

/-- C6.  A type name carrying an effective annotation passes the naming
check iff it ends with the configured handler suffix and is strictly
longer than the suffix alone — `Handler` is rejected, `LoginHandler`
accepted, `Login` rejected — and a violation is recorded as a collected
error without stopping shape extraction or the binding of the
declaration. -/
theorem c6_naming_rule :
    (∀ nm suffix : Str,
        handlerNameOk nm suffix = true ↔ suffix <:+ nm ∧ suffix.length < nm.length)
    ∧ handlerNameOk "Handler".toList "Handler".toList = false
    ∧ handlerNameOk "LoginHandler".toList "Handler".toList = true
    ∧ handlerNameOk "Login".toList "Handler".toList = false
    ∧ (∀ (P : Program) (fuel : Nat) (par : PkgId) (suffix : Str)
        (comments : List CommentGrp) (an : Ann) (ts : TypeSpecM) (cgIdx : Nat)
        (st : PState) (ev : EventRec),
        ts.doc = none →
        handlerNameOk ts.name suffix = false →
        extractEventF P fuel par an ts = some (.ok ev) →
        parseSpecs P fuel par suffix comments (some an) [ts] cgIdx st
          = some (cgIdx, ⟨st.decls ++ [⟨an, ev⟩],
              st.errors ++ [PErr.naming ts.namePos ts.name],
              st.needSync || (an.flags.fLock || an.flags.fWait)⟩)) := by
  refine ⟨handlerNameOk_iff, by decide, by decide, by decide, ?_⟩
  intro P fuel par suffix comments an ts cgIdx st ev hdoc hname hev
  rw [parseSpecs, hdoc]
  simp [scanCmt, hname, hev]
  rfl

/-- Witness for C6: binding the mis-named `Login` handler (with a lock
annotation, over a callable type) collects the naming error yet still
produces the declaration. -/
theorem c6_naming_rule_witness :
    parseSpecs progW 1 0 "Handler".toList [] (some ⟨0, lockOnlyFS⟩)
        [⟨"Login".toList, 4, none, .funcType 7⟩] 0 PState.init
      = some (0, ⟨[⟨⟨0, lockOnlyFS⟩, ⟨"Login".toList, 4, [⟨[], 7⟩]⟩⟩],
          [PErr.naming 4 "Login".toList], true⟩) :=
  c6_naming_rule.2.2.2.2 progW 1 0 "Handler".toList [] ⟨0, lockOnlyFS⟩
    ⟨"Login".toList, 4, none, .funcType 7⟩ 0 PState.init ⟨"Login".toList, 4, [⟨[], 7⟩]⟩
    rfl (by decide) rfl

/-- A successfully extracted event carries the declared type name. -/
theorem extractEventF_name (P : Program) (fuel : Nat) (par : PkgId) (an : Ann)
    (ts : TypeSpecM) (ev : EventRec)
    (h : extractEventF P fuel par an ts = some (.ok ev)) : ev.name = ts.name := by
  rw [extractEventF] at h
  rcases hres : resolveF P fuel par ts.typ with _ | rres
  · simp [hres] at h
  · rcases rres with _ | ⟨upkg, t'⟩
    · simp [hres] at h
    · cases t' with
    | identObj nm' => simp [hres] at h
    | identUse nm' => simp [hres] at h
    | selector x' s' => simp [hres] at h
    | paren x' => simp [hres] at h
    | otherType tag' => simp [hres] at h
    | funcType sig =>
      simp only [hres, Option.some.injEq, Except.ok.injEq] at h
      rw [← h]
    | interfaceType es =>
      simp only [hres] at h
      rcases hfl : extractIfaceF P par fuel upkg es [] with _ | fres
      · simp [hfl] at h
      · rcases fres with _ | ⟨funcs, sn⟩
        · simp [hfl] at h
        · simp only [hfl] at h
          by_cases hemp : funcs = []
          · rw [if_pos hemp] at h
            exact absurd h (by simp)
          · rw [if_neg hemp] at h
            simp only [Option.some.injEq, Except.ok.injEq] at h
            rw [← h]

/-- Every parser state steps to itself. -/
theorem stepOk_self (suffix : Str) (st : PState) : StepOk suffix st st :=
  ⟨[], [], (List.append_nil _).symm, (List.append_nil _).symm,
    fun _ d hd => absurd hd (List.not_mem_nil d)⟩

/-- Parsing steps compose. -/
theorem stepOk_trans {suffix : Str} {a b c : PState}
    (h₁ : StepOk suffix a b) (h₂ : StepOk suffix b c) : StepOk suffix a c := by
  obtain ⟨e₁, d₁, he₁, hd₁, hp₁⟩ := h₁
  obtain ⟨e₂, d₂, he₂, hd₂, hp₂⟩ := h₂
  refine ⟨e₁ ++ e₂, d₁ ++ d₂, ?_, ?_, ?_⟩
  · rw [he₂, he₁, List.append_assoc]
  · rw [hd₂, hd₁, List.append_assoc]
  · intro hnil d hd
    rw [List.append_eq_nil] at hnil
    rcases List.mem_append.mp hd with h | h
    · exact hp₁ hnil.1 d h
    · exact hp₂ hnil.2 d h

/-- The spec loop only appends errors and declarations, and appends an
unvetted declaration only alongside its naming error. -/
theorem parseSpecs_stepOk (P : Program) (fuel : Nat) (par : PkgId) (suffix : Str)
    (comments : List CommentGrp) (grpAnn : Option Ann) :
    ∀ (specs : List TypeSpecM) (cgIdx : Nat) (st : PState) (res : Nat × PState),
      parseSpecs P fuel par suffix comments grpAnn specs cgIdx st = some res →
      StepOk suffix st res.2 := by
  intro specs
  induction specs with
  | nil =>
    intro cgIdx st res h
    rw [parseSpecs] at h
    obtain ⟨rfl⟩ : (cgIdx, st) = res := by injection h
    exact stepOk_self suffix st
  | cons ts rest ih =>
    intro cgIdx st res h
    rw [parseSpecs] at h
    rcases hann : (match (scanCmt comments cgIdx ts.doc).1 with
        | some a => some a | none => grpAnn) with _ | an
    · rw [hann] at h
      simp only at h
      refine stepOk_trans ?_ (ih _ _ res h)
      exact ⟨(scanCmt comments cgIdx ts.doc).2.2, [], rfl, (List.append_nil _).symm,
        fun _ d hd => absurd hd (List.not_mem_nil d)⟩
    · rw [hann] at h
      simp only at h
      by_cases hname : handlerNameOk ts.name suffix = true
      · rw [if_pos hname] at h
        rcases hev : extractEventF P fuel par an ts with _ | eres
        · rw [hev] at h
          simp only at h
          exact absurd h (by simp)
        · rcases eres with e | ev
          · rw [hev] at h
            simp only at h
            refine stepOk_trans ?_ (ih _ _ res h)
            exact ⟨(scanCmt comments cgIdx ts.doc).2.2 ++ [e], [],
              by simp [List.append_assoc], (List.append_nil _).symm,
              fun _ d hd => absurd hd (List.not_mem_nil d)⟩
          · rw [hev] at h
            simp only at h
            refine stepOk_trans ?_ (ih _ _ res h)
            refine ⟨(scanCmt comments cgIdx ts.doc).2.2, [⟨an, ev⟩], rfl, rfl, ?_⟩
            intro _ d hd
            rw [List.mem_singleton.mp hd]
            rw [show (⟨an, ev⟩ : DeclRec).event.name = ts.name from
              extractEventF_name P fuel par an ts ev hev]
            exact hname
      · rw [if_neg hname] at h
        rcases hev : extractEventF P fuel par an ts with _ | eres
        · rw [hev] at h
          simp only at h
          exact absurd h (by simp)
        · rcases eres with e | ev
          · rw [hev] at h
            simp only at h
            refine stepOk_trans ?_ (ih _ _ res h)
            exact ⟨(scanCmt comments cgIdx ts.doc).2.2
                ++ [PErr.naming ts.namePos ts.name] ++ [e], [],
              by simp [List.append_assoc], (List.append_nil _).symm,
              fun _ d hd => absurd hd (List.not_mem_nil d)⟩
          · rw [hev] at h
            simp only at h
            refine stepOk_trans ?_ (ih _ _ res h)
            refine ⟨(scanCmt comments cgIdx ts.doc).2.2
                ++ [PErr.naming ts.namePos ts.name], [⟨an, ev⟩],
              by simp [List.append_assoc], rfl, ?_⟩
            intro hnil
            exact absurd hnil (by simp)

/-- The declaration loop only appends errors and declarations, with the
same vetting property. -/
theorem parseDecls_stepOk (P : Program) (fuel : Nat) (par : PkgId) (suffix : Str)
    (comments : List CommentGrp) :
    ∀ (ds : List GenDeclM) (cgIdx : Nat) (st : PState) (res : Nat × PState),
      parseDecls P fuel par suffix comments ds cgIdx st = some res →
      StepOk suffix st res.2 := by
  intro ds
  induction ds with
  | nil =>
    intro cgIdx st res h
    rw [parseDecls] at h
    obtain ⟨rfl⟩ : (cgIdx, st) = res := by injection h
    exact stepOk_self suffix st
  | cons gd rest ih =>
    intro cgIdx st res h
    rw [parseDecls] at h
    by_cases hty : gd.isTypeTok = true
    · rw [if_pos hty] at h
      simp only at h
      rcases hspec : parseSpecs P fuel par suffix comments
          (scanCmt comments cgIdx gd.doc).1 gd.specs (scanCmt comments cgIdx gd.doc).2.1
          ({ st with errors := st.errors ++ (scanCmt comments cgIdx gd.doc).2.2 }) with _ | mid
      · rw [hspec] at h
        exact absurd h (by simp)
      · rw [hspec] at h
        simp only at h
        refine stepOk_trans ?_ (stepOk_trans (parseSpecs_stepOk P fuel par suffix comments
          _ gd.specs _ _ mid hspec) (ih _ _ res h))
        exact ⟨(scanCmt comments cgIdx gd.doc).2.2, [], rfl, (List.append_nil _).symm,
          fun _ d hd => absurd hd (List.not_mem_nil d)⟩
    · rw [if_neg hty] at h
      exact ih _ _ res h

/-- The file loop only appends errors and declarations, with the same
vetting property. -/
theorem parseFiles_stepOk (P : Program) (fuel : Nat) (par : PkgId) (suffix : Str) :
    ∀ (files : List FileM) (st : PState) (st' : PState),
      parseFilesGo P fuel par suffix files st = some st' →
      StepOk suffix st st' := by
  intro files
  induction files with
  | nil =>
    intro st st' h
    rw [parseFilesGo] at h
    obtain rfl : st = st' := by injection h
    exact stepOk_self suffix st
  | cons f rest ih =>
    intro st st' h
    rw [parseFilesGo] at h
    rcases hf : parseFileGo P fuel par suffix f st with _ | mid
    · rw [hf] at h
      exact absurd h (by simp)
    · rw [hf] at h
      simp only at h
      refine stepOk_trans ?_ (ih _ _ h)
      rw [parseFileGo] at hf
      rcases hd : parseDecls P fuel par suffix f.comments f.decls 0 st with _ | r
      · rw [hd] at hf
        exact absurd hf (by simp)
      · rw [hd] at hf
        simp only [Option.some.injEq] at hf
        rw [← hf]
        exact parseDecls_stepOk P fuel par suffix f.comments f.decls 0 st r hd

/-- C10.  Whenever the pass ends with no collected error — the guard under
which generation runs — every bound declaration's event name passed the
naming check, so the event-name slice `Name[:len(Name)-len(suffix)]` is in
bounds: it produces the proper prefix whose concatenation with the suffix
is the name, of length at least one, and never the out-of-range case. -/
theorem c10_generate_safe (P : Program) (fuel : Nat) (par : PkgId) (suffix : Str)
    (files : List FileM) (st' : PState)
    (hrun : parseFilesGo P fuel par suffix files PState.init = some st')
    (hnoerr : st'.errors = []) :
    ∀ d ∈ st'.decls, handlerNameOk d.event.name suffix = true
      ∧ ∃ e, sliceEventName d.event.name suffix = some e
          ∧ e ++ suffix = d.event.name ∧ 1 ≤ e.length := by
  obtain ⟨Δe, Δd, he, hd, himp⟩ := parseFiles_stepOk P fuel par suffix files PState.init st' hrun
  have hΔe : Δe = [] := by
    rw [hnoerr] at he
    exact (List.append_eq_nil.mp he.symm).2
  intro d hdm
  have hdm' : d ∈ Δd := by
    rw [hd] at hdm
    simpa [PState.init] using hdm
  have hok := himp hΔe d hdm'
  refine ⟨hok, ?_⟩
  obtain ⟨hsuf, hlt⟩ := (handlerNameOk_iff _ _).mp hok
  obtain ⟨pre, hpre⟩ := hsuf
  refine ⟨pre, ?_, hpre, ?_⟩
  · rw [sliceEventName, if_pos (le_of_lt hlt)]
    rw [← hpre, List.length_append, Nat.add_sub_cancel, List.take_left]
  · rw [← hpre, List.length_append] at hlt
    omega

/-- Witness for C10: the one-file input `fileW` (an annotated
`LoginHandler` callable) parses with no error, and its bound declaration's
name slices safely to `Login`. -/
theorem c10_generate_safe_witness :
    handlerNameOk "LoginHandler".toList "Handler".toList = true
      ∧ ∃ e, sliceEventName "LoginHandler".toList "Handler".toList = some e
          ∧ e ++ "Handler".toList = "LoginHandler".toList ∧ 1 ≤ e.length :=
  c10_generate_safe progW 1 0 "Handler".toList [fileW]
    ⟨[⟨⟨0, lockOnlyFS⟩, ⟨"LoginHandler".toList, 1, [⟨[], 7⟩]⟩⟩], [], true⟩
    (by decide) rfl
    ⟨⟨0, lockOnlyFS⟩, ⟨"LoginHandler".toList, 1, [⟨[], 7⟩]⟩⟩ (by simp)

/-- C8.  The `generate.go` revision's NeedSync update is an assignment,
not an accumulation: with the accepted annotations `@evon(lock)` then
`@evon(catch)` scanned in that order, `NeedSync` ends up `false` and the
finalization step does not add the `sync` module, although a `lock`
annotation was accepted — while with the scan order reversed, and under
the `main.go` revision's sticky update on the same input, `NeedSync` is
`true` and `sync` is imported. -/
theorem c8_needsync_order_dependent :
    extractAnn (groupOfFlagSet lockOnlyFS) = .ok (some ⟨0, lockOnlyFS⟩)
    ∧ extractAnn (groupOfFlagSet catchOnlyFS) = .ok (some ⟨0, catchOnlyFS⟩)
    ∧ (needSyncScanGo [lockOnlyFS, catchOnlyFS]).2 = false
    ∧ ¬ "sync".toList ∈
        (finalizeImports (needSyncScanGo [lockOnlyFS, catchOnlyFS]).2 []).map Prod.fst
    ∧ (needSyncScanGo [catchOnlyFS, lockOnlyFS]).2 = true
    ∧ needSyncMono [lockOnlyFS, catchOnlyFS] = true
    ∧ "sync".toList ∈
        (finalizeImports (needSyncMono [lockOnlyFS, catchOnlyFS]) []).map Prod.fst :=
  ⟨rfl, rfl, rfl, by decide, rfl, rfl, by decide⟩

end Evon
